import Mathlib

/-!
Verification of the `incfg` configuration-option library (incfg.hpp / incfg.cpp).

The development shallowly embeds the core of the library:

* the value codec (`to_string_helper` / `from_string_helper` specialisations
  for `bool`, `std::string` and the generic stream-based numeric conversion,
  modelled for `int`),
* option records (`value` + `is_def`, with the `set` semantics generated by
  the `INCFG_REQUIRE` macro),
* the registry (`std::map<std::string, Option*>`, modelled as an ordered
  association list whose mapped values are nullable pointers),
* `to_config_string`,
* the text-stream loader `ConfigOptions::load(std::istream&)` (including its
  quote-aware space stripping and its line counter), and
* the command-line loader `ConfigOptions::load(int, char**)`.

C++ strings are modelled as `List Char`; `unsigned int` arithmetic is `Nat`
with explicit `% 4294967296` where wrap-around is observable.  Exceptions are
modelled with `Except`; each error constructor is documented with the C++
exception and message it stands for.  Reads past the end of `argv` and
dereferences of null `Option*` pointers — undefined behaviour in the C++ —
are modelled by the distinguished error constructors `outOfBoundsRead` and
`nullDeref`.
-/

deriving instance DecidableEq for Except

/-- A configuration value.  `incfg` stores one typed value per option; the
types exercised by the library's own tests are `int`, `double`, `bool` and
`std::string`.  The model covers `int` (for the generic stream codec),
`bool` and `std::string`; `double` is floating point and outside the model. -/
inductive Value where
  | vInt (n : Int)
  | vBool (b : Bool)
  | vStr (s : List Char)
deriving DecidableEq

/-- `is_boolean<TYPE>` from incfg.hpp: true only for the `bool` specialisation. -/
def Value.isBool : Value → Bool
  | .vBool _ => true
  | _ => false

/-- One option object, as generated by `INCFG_REQUIRE`: the immutable
description together with the mutable fields `TYPE value; bool is_def;`.
(The `name` lives as the key of the registry map.) -/
structure OptionRecord where
  description : List Char
  value : Value
  is_def : Bool
deriving DecidableEq

/-- `set` from the `INCFG_REQUIRE` macro body:
`is_def = is_def && (new_value == value); value = new_value;` —
the comparison is against the value held before the assignment. -/
def OptionRecord.set (r : OptionRecord) (v : Value) : OptionRecord :=
  { r with is_def := r.is_def && decide (v = r.value), value := v }

/-- The state of a freshly constructed option: `is_def(true), value(v)`
(the second `INCFG_REQUIRE` constructor, used by the static instance). -/
def initRecord (desc : List Char) (d : Value) : OptionRecord :=
  { description := desc, value := d, is_def := true }

/-- Decimal digit characters, as `std::stringstream` reads and writes them. -/
def isDigitChar (c : Char) : Bool :=
  c = '0' || c = '1' || c = '2' || c = '3' || c = '4' ||
  c = '5' || c = '6' || c = '7' || c = '8' || c = '9'

/-- Whitespace skipped by formatted stream extraction (`ss >> val`). -/
def isSpaceChar (c : Char) : Bool :=
  c = ' ' || c = '\t' || c = '\n' || c = Char.ofNat 11 || c = Char.ofNat 12 || c = '\r'

/-- The decimal character of a digit value. -/
def digitChar (d : Nat) : Char :=
  match d with
  | 0 => '0' | 1 => '1' | 2 => '2' | 3 => '3' | 4 => '4'
  | 5 => '5' | 6 => '6' | 7 => '7' | 8 => '8' | _ => '9'

/-- The digit value of a decimal character. -/
def charToDigit (c : Char) : Nat :=
  match c with
  | '0' => 0 | '1' => 1 | '2' => 2 | '3' => 3 | '4' => 4
  | '5' => 5 | '6' => 6 | '7' => 7 | '8' => 8 | '9' => 9
  | _ => 0

/-- Decimal rendering of a natural number (most significant digit first),
with explicit fuel so that the definition reduces by kernel computation.
`natToChars` below supplies sufficient fuel. -/
def natToCharsFuel : Nat → Nat → List Char
  | 0, _ => []
  | fuel + 1, n =>
    if n < 10 then [digitChar n]
    else natToCharsFuel fuel (n / 10) ++ [digitChar (n % 10)]

/-- Decimal rendering of a natural number, as `ss << val` prints it. -/
def natToChars (n : Nat) : List Char := natToCharsFuel (n + 1) n

/-- Decimal rendering of an `int`, as `ss << val` prints it. -/
def intToChars (n : Int) : List Char :=
  if n < 0 then '-' :: natToChars (-n).toNat else natToChars n.toNat

/-- The numeric value of a list of decimal digits (most significant first). -/
def digitsVal (l : List Char) : Nat :=
  l.foldl (fun acc c => acc * 10 + charToDigit c) 0

/-- The generic `from_string_helper<T>` of incfg.hpp instantiated at `int`:
`std::stringstream ss(str); ss >> val; if (ss.fail()) throw ...`.
Formatted extraction skips leading whitespace, accepts an optional sign and a
maximal non-empty run of decimal digits, and ignores anything after that run
(trailing content does not set `failbit`).  On failure the C++ throws
`StringParseException("Unable to parse "+str+" to its defined type")`;
the error carries that message. -/
def fromStringInt (s : List Char) : Except (List Char) Int :=
  let s1 := s.dropWhile isSpaceChar
  let s2 := if s1.headD ' ' = '-' ∨ s1.headD ' ' = '+' then s1.tail else s1
  let ds := s2.takeWhile isDigitChar
  if ds = [] then
    .error ("Unable to parse ".data ++ s ++ " to its defined type".data)
  else if s1.headD ' ' = '-' then
    .ok (-(digitsVal ds : Int))
  else
    .ok (digitsVal ds)

/-- `from_string_helper<bool>` of incfg.hpp: only the exact literals
`"true"` and `"false"` are accepted; anything else throws
`StringParseException("Unable to parse "+str+" to \"true\" or \"false\"")`. -/
def fromStringBool (s : List Char) : Except (List Char) Bool :=
  if s ≠ "true".data ∧ s ≠ "false".data then
    .error ("Unable to parse ".data ++ s ++ " to \"true\" or \"false\"".data)
  else
    .ok (decide (s = "true".data))

/-- `from_string_helper<std::string>` of incfg.hpp: strings shorter than two
characters are returned unchanged; if the first and last characters are both
`"` they are stripped (`str.substr(1, str.length()-2)`); otherwise the input
is returned unchanged.  This conversion never throws. -/
def fromStringString (s : List Char) : List Char :=
  if s.length < 2 then s
  else if s.getD 0 ' ' = '"' ∧ s.getD (s.length - 1) ' ' = '"' then
    (s.drop 1).take (s.length - 2)
  else s

/-- `to_string_helper<bool>` of incfg.hpp. -/
def toStringBool (b : Bool) : List Char :=
  if b then "true".data else "false".data

/-- `to_string_helper` dispatched at the option's static type:
`int` via the generic stream inserter, `bool` as `true`/`false`,
`std::string` wrapped in a pair of double quotes. -/
def getValueAsStr (r : OptionRecord) : List Char :=
  match r.value with
  | .vInt n => intToChars n
  | .vBool b => toStringBool b
  | .vStr s => '"' :: (s ++ ['"'])

/-- Errors surfaced by the loaders.  Each constructor stands for one C++
exception site:
* `ioError` — `ConfigOptionsLoadException("IO Error.")`;
* `invalidOption key` — `ConfigOptionsLoadException("Invalid configuration option: "+key)`;
* `unknownKey key` — `ConfigOptionsLoadException("Unexpected key: "+key)`;
* `missingValue key` — `ConfigOptionsLoadException("A value is expected for configuration option "+key)`;
* `invalidValue value key` — `ConfigOptionsLoadException(value+" is an invalid value for key "+key)`;
* `structuralError n` — `ConfigOptionsLoadException("Parse error at line "+n+": No key found (<key> = <value> expected)")`,
  `n` being the loader's `unsigned int linenum` as printed;
* `codecError key n` — the re-wrapped
  `StringParseException("Config file error for key <"+key+"> (Line "+n+"): ...")`,
  `n` being `linenum-1` in unsigned arithmetic as printed;
* `parseError msg` — a `StringParseException` propagating uncaught
  (the command-line loader does not catch codec failures);
* `nullDeref` — a call through a null `Option*` (undefined behaviour);
* `outOfBoundsRead` — a read of `argv` past its last element (undefined
  behaviour). -/
inductive LoadError where
  | ioError
  | invalidOption (key : List Char)
  | unknownKey (key : List Char)
  | missingValue (key : List Char)
  | invalidValue (value : List Char) (key : List Char)
  | structuralError (linenum : Nat)
  | codecError (key : List Char) (linenum : Nat)
  | parseError (msg : List Char)
  | nullDeref
  | outOfBoundsRead
deriving DecidableEq

/-- `parse_value_from_str` from the `INCFG_REQUIRE` macro body:
`set(from_string_helper<TYPE>(str, value))` — decode according to the
option's static type, then `set`.  A codec failure propagates before `set`
runs, so the record is unchanged on failure. -/
def parseValueFromStr (r : OptionRecord) (s : List Char) : Except (List Char) OptionRecord :=
  match r.value with
  | .vInt _ => (fromStringInt s).map (fun n => r.set (.vInt n))
  | .vBool _ => (fromStringBool s).map (fun b => r.set (.vBool b))
  | .vStr _ => .ok (r.set (.vStr (fromStringString s)))

/-- The registry: `std::map<std::string, Option*> options`, modelled as an
association list in the map's iteration order, mapping each name to a
nullable pointer (`Option OptionRecord`). -/
abbrev Registry := List (List Char × Option OptionRecord)

/-- `options.find(name)`: the mapped pointer if `name` is present
(`some p`, where `p = none` models a null pointer), `none` if absent. -/
def findPtr (reg : Registry) (n : List Char) : Option (Option OptionRecord) :=
  match reg with
  | [] => none
  | (m, p) :: rest => if m = n then some p else findPtr rest n

/-- Lexicographic order on names (`std::string` `operator<`, by byte value). -/
def nameLt : List Char → List Char → Bool
  | [], [] => false
  | [], _ :: _ => true
  | _ :: _, [] => false
  | c :: a, d :: b => if c.val < d.val then true else if d.val < c.val then false else nameLt a b

/-- Insertion into the ordered map (`std::map` keeps keys sorted); used to
model the insertion performed by `operator[]` on an absent key. -/
def insertPtr (n : List Char) (p : Option OptionRecord) : Registry → Registry
  | [] => [(n, p)]
  | (m, q) :: rest =>
    if nameLt n m then (n, p) :: (m, q) :: rest else (m, q) :: insertPtr n p rest

/-- `ConfigOptions::get`: `return options[name];` — `std::map::operator[]`
returns the mapped pointer if the key is present and otherwise
value-initialises the mapped value (a null `Option*`), inserts it, and
returns it.  The result is the returned pointer together with the registry
after the call. -/
def getOption (reg : Registry) (n : List Char) : Option OptionRecord × Registry :=
  match findPtr reg n with
  | some p => (p, reg)
  | none => (none, insertPtr n none reg)

/-- `options[key]->parse_value_from_str(value)` after a successful `find`:
the object behind the stored pointer is mutated, i.e. the entry for `key`
now holds the updated record. -/
def updateReg (reg : Registry) (n : List Char) (r : OptionRecord) : Registry :=
  reg.map (fun p => if p.1 = n then (p.1, some r) else p)

/-- One entry's contribution to `to_config_string`:
`if (description.length() > 0) { ss << "# " << description << endl; ss << "# " << endl; }`
then `ss << (is_default() ? "#" : "") << name << "=" << get_value_as_str() << endl << endl;`.
A null pointer would be dereferenced by the C++; the model lets a null entry
contribute nothing, and every theorem about `toConfigString` assumes a
registry without null entries. -/
def entryText (n : List Char) (p : Option OptionRecord) : List Char :=
  match p with
  | none => []
  | some r =>
    (if r.description.length > 0 then
      ('#' :: ' ' :: r.description) ++ '\n' :: ('#' :: ' ' :: '\n' :: [])
     else []) ++
    (if r.is_def then ['#'] else []) ++ n ++ '=' :: (getValueAsStr r ++ ['\n', '\n'])

/-- `ConfigOptions::to_config_string`: the concatenation of every entry's
text, in the map's iteration order. -/
def toConfigString (reg : Registry) : List Char :=
  match reg with
  | [] => []
  | (n, p) :: rest => entryText n p ++ toConfigString rest

/-- `std::remove(first, last, ' ')` over a whole segment: the segment with
every space removed, order preserved. -/
def removeSpaces (l : List Char) : List Char := l.filter (fun c => ¬ (c = ' '))

/-- Index of the first character satisfying `p`, if any. -/
def firstPos (p : Char → Bool) : List Char → Option Nat
  | [] => none
  | c :: rest => if p c then some 0 else (firstPos p rest).map (· + 1)

/-- Index of the last character satisfying `p`, if any. -/
def lastPos (p : Char → Bool) : List Char → Option Nat
  | [] => none
  | c :: rest =>
    match lastPos p rest with
    | some i => some (i + 1)
    | none => if p c then some 0 else none

/-- `buff.erase(remove(buff.begin(), buff.begin()+end_idx, ' '), buff.begin()+end_idx)`
with `end_idx` the index of the first `"` (or the length when there is
none): all spaces before the first double quote are removed. -/
def eraseSpacesBeforeQuote (l : List Char) : List Char :=
  let e := (firstPos (· = '"') l).getD l.length
  removeSpaces (l.take e) ++ l.drop e

/-- `buff.erase(remove(buff.begin()+start_idx, buff.end(), ' '), buff.end())`
with `start_idx` the index of the last `"` in the already-modified buffer
(or 0 when there is none): all spaces from the last double quote to the end
are removed. -/
def eraseSpacesAfterQuote (l : List Char) : List Char :=
  let s := (lastPos (· = '"') l).getD 0
  l.take s ++ removeSpaces (l.drop s)

/-- The space stripping the text-stream loader applies to each non-skipped
line, in the order the C++ performs it. -/
def stripLine (l : List Char) : List Char :=
  eraseSpacesAfterQuote (eraseSpacesBeforeQuote l)

/-- A line the loader skips:
`buff[0] == '#' || buff[0] == 0 || buff[0] == '\n' || buff[0] == '\r'`
(`operator[]` on an empty `std::string` at index 0 yields the null
character, so an empty line is skipped). -/
def skipLine (l : List Char) : Bool :=
  match l with
  | [] => true
  | c :: _ => c = '#' || c = Char.ofNat 0 || c = '\n' || c = '\r'

/-- Processing of a single non-skipped line by `ConfigOptions::load(std::istream&)`,
with `k` the value of `linenum` while this line is processed (`k` counts the
lines already consumed before this one; the loader's initial `getline` does
not increment `linenum`, so the first line is processed with `linenum = 0`).
Structural errors print `linenum` (an `unsigned int`); re-wrapped codec
errors print `linenum - 1` in unsigned arithmetic. -/
def processLine (reg : Registry) (k : Nat) (line : List Char) : Except LoadError Registry :=
  if skipLine line then .ok reg
  else
    let buff := stripLine line
    match firstPos (· = '=') buff with
    | none => .error (.structuralError (k % 4294967296))
    | some 0 => .error (.structuralError (k % 4294967296))
    | some (e + 1) =>
      let key := buff.take (e + 1)
      let value := buff.drop (e + 2)
      match findPtr reg key with
      | none => .error (.unknownKey key)
      | some none => .error .nullDeref
      | some (some r) =>
        match parseValueFromStr r value with
        | .error _ => .error (.codecError key ((k + 4294967295) % 4294967296))
        | .ok r' => .ok (updateReg reg key r')

/-- The loader's line loop: process each line in turn, incrementing the
line counter, stopping at the first error. -/
def loadLines (reg : Registry) (k : Nat) : List (List Char) → Except LoadError Registry
  | [] => .ok reg
  | l :: rest =>
    match processLine reg k l with
    | .ok reg' => loadLines reg' (k + 1) rest
    | .error e => .error e

/-- The segments of a character stream delimited by `'\n'` (a trailing
newline yields a trailing empty segment). -/
def splitNl : List Char → List (List Char)
  | [] => [[]]
  | c :: rest =>
    if c = '\n' then [] :: splitNl rest
    else
      match splitNl rest with
      | h :: t => (c :: h) :: t
      | [] => [[c]]

/-- The successive results of `std::getline` on a stream holding `s`:
the newline-delimited segments, except that the final segment is not
produced when it is empty (`getline` at end-of-stream extracts nothing and
sets `failbit`, ending the loader's loop). -/
def getLines (s : List Char) : List (List Char) :=
  let segs := splitNl s
  if segs.getLast? = some [] then segs.dropLast else segs

/-- `ConfigOptions::load(std::string&)`: wrap the string in an
`std::istringstream` (which is never initially in a failed state, so the
loader's leading `fail()` check — `ConfigOptionsLoadException("IO Error.")`
— does not fire) and run the text-stream loader. -/
def loadConfig (reg : Registry) (s : List Char) : Except LoadError Registry :=
  loadLines reg 0 (getLines s)

/-- The key-token checks of one iteration of the command-line loader's
loop: the token must be at least 3 characters long; it is rejected only
when additionally BOTH of its first two characters differ from `-` (the
code tests `key[0] != '-' && key[1] != '-'`); the two leading characters
are then stripped (`key.substr(2, key.length()-1)`) and the result looked
up in the registry (`options.find`), failing with the unexpected-key error
when absent.  On success the looked-up record is returned (a null stored
pointer would be dereferenced by the subsequent call: `nullDeref`). -/
def checkArgKey (reg : Registry) (key : List Char) : Except LoadError OptionRecord :=
  if key.length < 3 then .error (.invalidOption key)
  else if key.getD 0 ' ' ≠ '-' ∧ key.getD 1 ' ' ≠ '-' then .error (.invalidOption key)
  else
    match findPtr reg (key.drop 2) with
    | none => .error (.unknownKey (key.drop 2))
    | some none => .error .nullDeref
    | some (some r) => .ok r

/-- The value-token handling of the command-line loader: a token that is
longer than one character and starts with two dashes is rejected
(`value.length()>1 && value[0]=='-' && value[1]=='-'`); otherwise it is
decoded with `parse_value_from_str`, whose `StringParseException`
propagates uncaught. -/
def parseArgValue (r : OptionRecord) (k : List Char) (v : List Char) :
    Except LoadError OptionRecord :=
  if v.length > 1 ∧ v.getD 0 ' ' = '-' ∧ v.getD 1 ' ' = '-' then .error (.invalidValue v k)
  else
    match parseValueFromStr r v with
    | .error msg => .error (.parseError msg)
    | .ok r' => .ok r'

/-- The body of the command-line loader's loop, from the argument at index
`idx` on.  `argc` is the argument count and the list holds the arguments
`argv[idx], argv[idx+1], ...`.  A boolean option is set to `true` and
consumes no further token.  Otherwise the C++ checks `idx == argc` before
reading the value token — but inside the loop `idx < argc` always holds,
so the check can never fire; when the key is the final argument the C++
then reads `argv[++idx] = argv[argc]`, past the last argument
(`outOfBoundsRead`). -/
def loadArgsFrom (reg : Registry) (argc idx : Nat) :
    List (List Char) → Except LoadError Registry
  | [] => .ok reg
  | key :: rest =>
    match checkArgKey reg key with
    | .error e => .error e
    | .ok r =>
      if r.value.isBool then
        match parseValueFromStr r "true".data with
        | .error msg => .error (.parseError msg)
        | .ok r' => loadArgsFrom (updateReg reg (key.drop 2) r') argc (idx + 1) rest
      else
        if idx = argc then .error (.missingValue (key.drop 2))
        else
          match rest with
          | [] => .error .outOfBoundsRead
          | v :: rest2 =>
            match parseArgValue r (key.drop 2) v with
            | .error e => .error e
            | .ok r' => loadArgsFrom (updateReg reg (key.drop 2) r') argc (idx + 2) rest2

/-- `ConfigOptions::load(int argc, char* argv[])`: nothing to do when
`argc < 2`; otherwise process the arguments from index 1 (the program name
at index 0 is skipped). -/
def loadArgs (reg : Registry) (args : List (List Char)) : Except LoadError Registry :=
  if args.length < 2 then .ok reg
  else loadArgsFrom reg args.length 1 args.tail

/-- `true` iff a loader outcome is the (unreachable) missing-value failure. -/
def isMissingValueResult : Except LoadError Registry → Bool
  | .error (.missingValue _) => true
  | _ => false

/-- A mutation of one option record: a direct `set` or a
`parse_value_from_str` (which leaves the record unchanged when the codec
fails, since the exception is thrown before `set` runs). -/
inductive RecOp where
  | set (v : Value)
  | parseStr (s : List Char)

/-- Apply one record operation. -/
def applyOp (r : OptionRecord) : RecOp → OptionRecord
  | .set v => r.set v
  | .parseStr s =>
    match parseValueFromStr r s with
    | .ok r' => r'
    | .error _ => r

/-- Apply a sequence of record operations, left to right. -/
def applyOps (r : OptionRecord) (ops : List RecOp) : OptionRecord :=
  ops.foldl applyOp r

/-- A character that may appear in a registered option name.  Names come
from the `INCFG_REQUIRE` macro, where they are C++ identifiers, so they
contain no space, quote, `=`, newline, carriage return, `#` or null
character. -/
def goodNameChar (c : Char) : Bool :=
  c != ' ' && c != '"' && c != '=' && c != '\n' && c != '\r' && c != '#' && c != Char.ofNat 0

/-- A well-formed (macro-registered) option name: non-empty, made of
identifier-like characters. -/
def goodName (n : List Char) : Bool :=
  !n.isEmpty && n.all goodNameChar

/-- A value whose encoded form stays on one line: string values must not
contain a newline (ints and bools never render one). -/
def lfFreeValue : Value → Bool
  | .vStr s => s.all (· != '\n')
  | _ => true

/-- A non-null entry whose description and value keep every generated
line on one physical line. -/
def goodPtr : Option OptionRecord → Bool
  | none => false
  | some r => r.description.all (· != '\n') && lfFreeValue r.value

/-- `std::map` keys are unique: no name appears twice. -/
def distinctKeys : Registry → Bool
  | [] => true
  | (n, _) :: rest => rest.all (fun e => e.1 != n) && distinctKeys rest

/-- A registry as built by macro registration: unique well-formed names,
no null pointers, newline-free descriptions and string values. -/
def goodRegistry (reg : Registry) : Bool :=
  distinctKeys reg && reg.all (fun e => goodName e.1 && goodPtr e.2)

/-- The lines `to_config_string` generates for one entry, as the
(amended) specification describes them: when the description is non-empty,
the line `# <description>` and a line holding `#` followed by a space;
then one line `<prefix><name>=<encoded value>` with `<prefix>` equal to
`#` exactly when `is_default()` holds; then a blank line. -/
def entryLinesSpec (n : List Char) (r : OptionRecord) : List (List Char) :=
  (if r.description.length > 0 then
    [('#' :: ' ' :: r.description), ['#', ' ']]
   else []) ++
  [(if r.is_def then ['#'] else []) ++ n ++ '=' :: getValueAsStr r, []]

/-- The lines of the whole generated configuration string, entry by entry
in enumeration order. -/
def registryLines : Registry → List (List Char)
  | [] => []
  | (n, p) :: rest =>
    (match p with
     | some r => entryLinesSpec n r
     | none => []) ++ registryLines rest

/-- Join lines with a trailing newline after each. -/
def joinNl : List (List Char) → List Char
  | [] => []
  | l :: rest => l ++ '\n' :: joinNl rest

/-- A registry with one `int`, one `std::string` and one `bool` option,
the first two holding non-default values. -/
def sampleReg : Registry :=
  [("opt1".data, some ⟨"option 1".data, Value.vInt 30, false⟩),
   ("opt3".data, some ⟨[], Value.vStr " x ".data, false⟩),
   ("opt4".data, some ⟨"b".data, Value.vBool false, true⟩)]

/-- A registry whose single string option has been set to a value holding
an embedded newline. -/
def newlineReg : Registry :=
  [("opt3".data, some ⟨[], Value.vStr "a\nb".data, false⟩)]

/-- A registry with one defaulted `int` option carrying a description. -/
def oneIntReg : Registry :=
  [("opt1".data, some ⟨"option 1".data, Value.vInt 10, true⟩)]

/-- A registry with two defaulted `int` options and no descriptions. -/
def twoIntReg : Registry :=
  [("opt1".data, some ⟨[], Value.vInt 10, true⟩),
   ("opt2".data, some ⟨[], Value.vInt 20, true⟩)]

/-- A registry with one defaulted string option named `opt`. -/
def oneStrReg : Registry :=
  [("opt".data, some ⟨[], Value.vStr "opt3!".data, true⟩)]

theorem set_isDef_true {r : OptionRecord} {v : Value}
    (h : (r.set v).is_def = true) : (r.set v).value = r.value ∧ r.is_def = true := by
  simp only [OptionRecord.set, Bool.and_eq_true, decide_eq_true_eq] at h
  simp only [OptionRecord.set]
  exact ⟨h.2, h.1⟩

theorem set_isDef_false {r : OptionRecord} {v : Value}
    (h : r.is_def = false) : (r.set v).is_def = false := by
  simp [OptionRecord.set, h]

theorem parse_ok_is_set {r r' : OptionRecord} {s : List Char}
    (h : parseValueFromStr r s = .ok r') : ∃ v, r' = r.set v := by
  unfold parseValueFromStr at h
  split at h
  · cases hfi : fromStringInt s <;> simp [hfi, Except.map] at h
    exact ⟨_, h.symm⟩
  · cases hfb : fromStringBool s <;> simp [hfb, Except.map] at h
    exact ⟨_, h.symm⟩
  · simp at h
    exact ⟨_, h.symm⟩

theorem applyOp_cases (r : OptionRecord) (op : RecOp) :
    applyOp r op = r ∨ ∃ v, applyOp r op = r.set v := by
  cases op with
  | set v => exact Or.inr ⟨v, rfl⟩
  | parseStr s =>
    simp only [applyOp]
    rcases hp : parseValueFromStr r s with e | r'
    · exact Or.inl rfl
    · obtain ⟨v, hv⟩ := parse_ok_is_set hp
      exact Or.inr ⟨v, hv⟩

theorem applyOp_isDef_true {r : OptionRecord} {op : RecOp}
    (h : (applyOp r op).is_def = true) :
    (applyOp r op).value = r.value ∧ r.is_def = true := by
  rcases applyOp_cases r op with heq | ⟨v, heq⟩
  · rw [heq] at h ⊢
    exact ⟨rfl, h⟩
  · rw [heq] at h ⊢
    exact set_isDef_true h

theorem applyOp_isDef_false {r : OptionRecord} {op : RecOp}
    (h : r.is_def = false) : (applyOp r op).is_def = false := by
  rcases applyOp_cases r op with heq | ⟨v, heq⟩
  · rw [heq]; exact h
  · rw [heq]; exact set_isDef_false h

theorem applyOps_isDef_true :
    ∀ (ops : List RecOp) (r : OptionRecord),
      (applyOps r ops).is_def = true →
      (applyOps r ops).value = r.value ∧ r.is_def = true := by
  intro ops
  induction ops with
  | nil => intro r h; exact ⟨rfl, h⟩
  | cons op rest ih =>
    intro r h
    have hstep : applyOps r (op :: rest) = applyOps (applyOp r op) rest := rfl
    rw [hstep] at h ⊢
    obtain ⟨hv, hd⟩ := ih (applyOp r op) h
    obtain ⟨hv', hd'⟩ := applyOp_isDef_true hd
    exact ⟨hv.trans hv', hd'⟩

theorem applyOps_isDef_false :
    ∀ (ops : List RecOp) (r : OptionRecord),
      r.is_def = false → (applyOps r ops).is_def = false := by
  intro ops
  induction ops with
  | nil => intro r h; exact h
  | cons op rest ih =>
    intro r h
    exact ih (applyOp r op) (applyOp_isDef_false h)

/-- C4 — Sticky-default invariant: over any sequence of `set` /
`parse_value_from_str` operations starting from a freshly constructed
record with default `d`, once the record's value differs from `d` (i.e. it
has been assigned a value unequal to its original default), `is_default`
is false and remains false under every continuation, including
re-assignments of the original default. -/
theorem c4_sticky_default (desc : List Char) (d : Value) (ops more : List RecOp)
    (h : (applyOps (initRecord desc d) ops).value ≠ d) :
    (applyOps (initRecord desc d) (ops ++ more)).is_def = false := by
  have hsplit : applyOps (initRecord desc d) (ops ++ more)
      = applyOps (applyOps (initRecord desc d) ops) more := by
    simp [applyOps, List.foldl_append]
  have hfalse : (applyOps (initRecord desc d) ops).is_def = false := by
    cases hd : (applyOps (initRecord desc d) ops).is_def
    · rfl
    · obtain ⟨hv, _⟩ := applyOps_isDef_true ops _ hd
      exact absurd hv h
  rw [hsplit]
  exact applyOps_isDef_false more _ hfalse

theorem c4_sticky_default_witness :
    (applyOps (initRecord [] (Value.vInt 10)) [RecOp.set (Value.vInt 30)]).value ≠ Value.vInt 10 ∧
    (applyOps (initRecord [] (Value.vInt 10))
      ([RecOp.set (Value.vInt 30)] ++ [RecOp.set (Value.vInt 10)])).is_def = false :=
  ⟨by decide,
   c4_sticky_default [] (Value.vInt 10) [RecOp.set (Value.vInt 30)] [RecOp.set (Value.vInt 10)]
     (by decide)⟩

/-- C8 — Boolean codec: `to_string_helper<bool>` emits exactly `true` /
`false`, and `from_string_helper<bool>` accepts exactly those two
case-sensitive literals, raising the parse error on every other input
(in particular on `"30"` and `"True"`). -/
theorem c8_bool_codec :
    (∀ s : List Char,
      fromStringBool s =
        if s = "true".data then .ok true
        else if s = "false".data then .ok false
        else .error ("Unable to parse ".data ++ s ++ " to \"true\" or \"false\"".data)) ∧
    toStringBool true = "true".data ∧
    toStringBool false = "false".data ∧
    fromStringBool "30".data =
      .error ("Unable to parse ".data ++ "30".data ++ " to \"true\" or \"false\"".data) ∧
    fromStringBool "True".data =
      .error ("Unable to parse ".data ++ "True".data ++ " to \"true\" or \"false\"".data) := by
  refine ⟨?_, by decide, by decide, by decide, by decide⟩
  intro s
  by_cases h1 : s = "true".data
  · subst h1; decide
  · by_cases h2 : s = "false".data
    · subst h2; decide
    · simp [fromStringBool, h1, h2]

theorem insertPtr_length (n : List Char) (p : Option OptionRecord) :
    ∀ reg : Registry, (insertPtr n p reg).length = reg.length + 1 := by
  intro reg
  induction reg with
  | nil => rfl
  | cons e rest ih =>
    obtain ⟨m, q⟩ := e
    simp only [insertPtr]
    split
    · simp
    · simp [ih]

theorem findPtr_insertPtr_self (n : List Char) (p : Option OptionRecord) :
    ∀ reg : Registry, findPtr reg n = none →
      findPtr (insertPtr n p reg) n = some p := by
  intro reg
  induction reg with
  | nil => intro _; simp [insertPtr, findPtr]
  | cons e rest ih =>
    obtain ⟨m, q⟩ := e
    intro h
    simp only [findPtr] at h
    by_cases hm : m = n
    · rw [if_pos hm] at h; exact absurd h (by simp)
    · rw [if_neg hm] at h
      simp only [insertPtr]
      split
      · simp [findPtr]
      · simp only [findPtr, if_neg hm]
        exact ih h

theorem findPtr_insertPtr_other (n : List Char) (p : Option OptionRecord)
    (m : List Char) (hm : m ≠ n) :
    ∀ reg : Registry, findPtr (insertPtr n p reg) m = findPtr reg m := by
  intro reg
  induction reg with
  | nil => simp [insertPtr, findPtr, Ne.symm hm]
  | cons e rest ih =>
    obtain ⟨a, b⟩ := e
    simp only [insertPtr]
    split
    · simp only [findPtr]
      rw [if_neg (fun h => hm h.symm)]
    · simp only [findPtr]
      by_cases ha : a = m
      · rw [if_pos ha, if_pos ha]
      · rw [if_neg ha, if_neg ha]
        exact ih

/-- C10 — `ConfigOptions::get` on an absent name returns the null sentinel
and inserts the name mapped to it: the map grows by one, a subsequent
membership test for the name succeeds (finding the null pointer), and every
other name's entry is unchanged. -/
theorem c10_get_absent_inserts (reg : Registry) (n : List Char)
    (h : findPtr reg n = none) :
    (getOption reg n).1 = none ∧
    (getOption reg n).2.length = reg.length + 1 ∧
    findPtr (getOption reg n).2 n = some none ∧
    ∀ m, m ≠ n → findPtr (getOption reg n).2 m = findPtr reg m := by
  have hg : getOption reg n = (none, insertPtr n none reg) := by
    unfold getOption
    rw [h]
  rw [hg]
  exact ⟨rfl, insertPtr_length n none reg, findPtr_insertPtr_self n none reg h,
    fun m hm => findPtr_insertPtr_other n none m hm reg⟩

theorem c10_get_absent_inserts_witness :
    (getOption twoIntReg "zzz".data).1 = none ∧
    (getOption twoIntReg "zzz".data).2.length = twoIntReg.length + 1 ∧
    findPtr (getOption twoIntReg "zzz".data).2 "zzz".data = some none ∧
    ∀ m, m ≠ "zzz".data →
      findPtr (getOption twoIntReg "zzz".data).2 m = findPtr twoIntReg m :=
  c10_get_absent_inserts twoIntReg "zzz".data (by decide)

/-- C7 (counterexample) — `get` on a name absent from the registry does not
fail: it returns the pair of the null sentinel and the registry with the
name newly mapped to the null sentinel. -/
theorem c7_get_unknown_counterexample :
    getOption twoIntReg "zzz".data =
      (none, twoIntReg ++ [("zzz".data, none)]) := by decide

/-- C7 (amended) — for every name absent from the registry,
`ConfigOptions::get` does not raise `UnknownKey`: `options[name]` returns a
null `Option*` after inserting the name mapped to that null pointer (the
`UnknownKey` failure belongs to the loaders' `options.find` checks, not to
`get`). -/
theorem c7_get_absent_returns_null (reg : Registry) (n : List Char)
    (h : findPtr reg n = none) :
    (getOption reg n).1 = none ∧
    (getOption reg n).2 = insertPtr n none reg ∧
    findPtr (getOption reg n).2 n = some none := by
  have hg : getOption reg n = (none, insertPtr n none reg) := by
    unfold getOption
    rw [h]
  rw [hg]
  exact ⟨rfl, rfl, findPtr_insertPtr_self n none reg h⟩

theorem c7_get_absent_returns_null_witness :
    (getOption twoIntReg "zzz".data).1 = none ∧
    (getOption twoIntReg "zzz".data).2 = insertPtr "zzz".data none twoIntReg ∧
    findPtr (getOption twoIntReg "zzz".data).2 "zzz".data = some none :=
  c7_get_absent_returns_null twoIntReg "zzz".data (by decide)

/-- C3 (amended) — a key token reached by the command-line scan fails with
`InvalidOption` when it is shorter than 3 characters, or when both of its
first two characters differ from `-` (the code tests
`key[0] != '-' && key[1] != '-'`, so a token whose second character is `-`
is accepted even without a leading `--`). -/
theorem c3_invalid_option_amended (reg : Registry) (argc idx : Nat)
    (key : List Char) (rest : List (List Char))
    (h : key.length < 3 ∨ (key.getD 0 ' ' ≠ '-' ∧ key.getD 1 ' ' ≠ '-')) :
    loadArgsFrom reg argc idx (key :: rest) = .error (.invalidOption key) := by
  have hck : checkArgKey reg key = .error (.invalidOption key) := by
    rcases h with h | h
    · unfold checkArgKey
      rw [if_pos h]
    · unfold checkArgKey
      by_cases hl : key.length < 3
      · rw [if_pos hl]
      · rw [if_neg hl, if_pos h]
  simp only [loadArgsFrom, hck]

theorem c3_invalid_option_amended_witness :
    loadArgsFrom twoIntReg 2 1 ["ab".data] = .error (.invalidOption "ab".data) :=
  c3_invalid_option_amended twoIntReg 2 1 "ab".data [] (by decide)

/-- C3 (counterexample) — the argument token `x-opt1` is shorter than no
bound, does not begin with `--`, and yet the load succeeds, assigning 5 to
`opt1`: no `InvalidOption` failure is raised. -/
theorem c3_counterexample :
    loadArgs twoIntReg ["prog".data, "x-opt1".data, "5".data] =
      .ok [("opt1".data, some ⟨[], Value.vInt 5, false⟩),
           ("opt2".data, some ⟨[], Value.vInt 20, true⟩)] := by decide

theorem checkArgKey_error_not_missing {reg : Registry} {key : List Char} {e : LoadError}
    (h : checkArgKey reg key = .error e) : ∀ k, e ≠ .missingValue k := by
  intro k hk
  subst hk
  unfold checkArgKey at h
  split at h
  · exact absurd h (by simp)
  · split at h
    · exact absurd h (by simp)
    · split at h <;> simp_all

theorem parseArgValue_error_not_missing {r : OptionRecord} {k v : List Char} {e : LoadError}
    (h : parseArgValue r k v = .error e) : ∀ k', e ≠ .missingValue k' := by
  intro k' hk
  subst hk
  unfold parseArgValue at h
  split at h
  · exact absurd h (by simp)
  · split at h <;> simp_all

theorem isMissing_error_of_shape {e : LoadError}
    (h : ∀ k, e ≠ .missingValue k) : isMissingValueResult (.error e) = false := by
  cases e <;> first | rfl | exact absurd rfl (h _)

theorem loadArgsFrom_no_missingValue :
    ∀ (n : Nat) (l : List (List Char)) (reg : Registry) (argc idx : Nat),
      l.length ≤ n → idx + l.length = argc →
      isMissingValueResult (loadArgsFrom reg argc idx l) = false := by
  intro n
  induction n with
  | zero =>
    intro l reg argc idx hl _
    have hnil : l = [] := List.eq_nil_of_length_eq_zero (Nat.le_zero.mp hl)
    subst hnil
    rfl
  | succ n ih =>
    intro l reg argc idx hl hinv
    match l with
    | [] => rfl
    | key :: rest =>
      have hidx : idx ≠ argc := by
        simp only [List.length_cons] at hinv
        omega
      simp only [loadArgsFrom]
      cases hck : checkArgKey reg key with
      | error e => exact isMissing_error_of_shape (checkArgKey_error_not_missing hck)
      | ok r =>
        dsimp only
        cases hb : r.value.isBool with
        | true =>
          rw [if_pos rfl]
          cases hp : parseValueFromStr r "true".data with
          | error msg => rfl
          | ok r' =>
            apply ih
            · simp only [List.length_cons] at hl
              omega
            · simp only [List.length_cons] at hinv
              omega
        | false =>
          rw [if_neg (by simp), if_neg hidx]
          cases rest with
          | nil => rfl
          | cons v rest2 =>
            dsimp only
            cases hpv : parseArgValue r (key.drop 2) v with
            | error e => exact isMissing_error_of_shape (parseArgValue_error_not_missing hpv)
            | ok r' =>
              apply ih
              · simp only [List.length_cons] at hl
                omega
              · simp only [List.length_cons] at hinv
                omega

/-- C2 — Command-line loader, trailing valueless key and `--`-value:
with a registered non-boolean key as the final argument the loader does
NOT fail with the missing-value error (that branch is unreachable, since
`idx == argc` never holds inside the loop): it reads `argv[argc]`, one
past the last argument.  When the following token begins with `--`, the
loader fails with the invalid-value error as specified.  No argument list
whatsoever can produce the missing-value failure. -/
theorem c2_missing_value_unreachable :
    loadArgs twoIntReg ["prog".data, "--opt1".data] = .error .outOfBoundsRead ∧
    loadArgs twoIntReg ["prog".data, "--opt1".data, "--opt2".data] =
      .error (.invalidValue "--opt2".data "opt1".data) ∧
    ∀ (reg : Registry) (args : List (List Char)),
      isMissingValueResult (loadArgs reg args) = false := by
  refine ⟨by decide, by decide, ?_⟩
  intro reg args
  unfold loadArgs
  split
  · rfl
  · rename_i hlen
    cases args with
    | nil => simp at hlen
    | cons a t =>
      apply loadArgsFrom_no_missingValue t.length t reg (a :: t).length 1 le_rfl
      simp [Nat.add_comm]

theorem firstPos_eq_none (p : Char → Bool) :
    ∀ l : List Char, (∀ c ∈ l, p c = false) → firstPos p l = none := by
  intro l
  induction l with
  | nil => intro _; rfl
  | cons c t ih =>
    intro h
    have hc : p c = false := h c (by simp)
    have ih' := ih (fun d hd => h d (by simp [hd]))
    simp [firstPos, hc, ih']

theorem firstPos_append (p : Char → Bool) (b : Char) (t : List Char) (hb : p b = true) :
    ∀ a : List Char, (∀ c ∈ a, p c = false) →
      firstPos p (a ++ b :: t) = some a.length := by
  intro a
  induction a with
  | nil =>
    intro _
    simp [firstPos, hb]
  | cons c a' ih =>
    intro h
    have hc : p c = false := h c (by simp)
    have ih' := ih (fun d hd => h d (by simp [hd]))
    simp [firstPos, hc, ih']

theorem lastPos_eq_none (p : Char → Bool) :
    ∀ l : List Char, (∀ c ∈ l, p c = false) → lastPos p l = none := by
  intro l
  induction l with
  | nil => intro _; rfl
  | cons c t ih =>
    intro h
    have hc : p c = false := h c (by simp)
    have ih' := ih (fun d hd => h d (by simp [hd]))
    simp [lastPos, hc, ih']

theorem lastPos_append (p : Char → Bool) (c0 : Char) (t : List Char) (hc : p c0 = true)
    (h : ∀ c ∈ t, p c = false) :
    ∀ q : List Char, lastPos p (q ++ c0 :: t) = some q.length := by
  intro q
  induction q with
  | nil =>
    simp [lastPos, lastPos_eq_none p t h, hc]
  | cons d q' ih =>
    simp [lastPos, ih]

theorem not_quote_mem_removeSpaces {l : List Char} (h : '"' ∉ l) :
    '"' ∉ removeSpaces l := by
  intro hmem
  exact h (List.mem_of_mem_filter hmem)

theorem removeSpaces_idem (l : List Char) :
    removeSpaces (removeSpaces l) = removeSpaces l := by
  apply List.filter_eq_self.mpr
  intro c hc
  simpa using (List.of_mem_filter hc)

theorem removeSpaces_eq_self {l : List Char} (h : ' ' ∉ l) :
    removeSpaces l = l := by
  apply List.filter_eq_self.mpr
  intro c hc
  simp only [decide_eq_true_eq]
  intro he
  exact h (he ▸ hc)

theorem no_quote_decide {l : List Char} (h : '"' ∉ l) :
    ∀ c ∈ l, (decide (c = '"')) = false := by
  intro c hc
  simp only [decide_eq_false_iff_not]
  intro he
  exact h (he ▸ hc)

theorem stripLine_no_quote {l : List Char} (h : '"' ∉ l) :
    stripLine l = removeSpaces l := by
  unfold stripLine eraseSpacesBeforeQuote eraseSpacesAfterQuote
  rw [firstPos_eq_none _ l (no_quote_decide h)]
  simp only [Option.getD_none, List.take_length, List.drop_length, List.append_nil]
  rw [lastPos_eq_none _ (removeSpaces l) (no_quote_decide (not_quote_mem_removeSpaces h))]
  simp only [Option.getD_none, List.take_zero, List.drop_zero, List.nil_append]
  exact removeSpaces_idem l

theorem stripLine_one_quote {pre post : List Char}
    (hpre : '"' ∉ pre) (hpost : '"' ∉ post) :
    stripLine (pre ++ '"' :: post) = removeSpaces pre ++ '"' :: removeSpaces post := by
  unfold stripLine eraseSpacesBeforeQuote eraseSpacesAfterQuote
  rw [firstPos_append _ '"' post (by decide) pre (no_quote_decide hpre)]
  simp only [Option.getD_some, List.take_left, List.drop_left]
  rw [lastPos_append _ '"' post (by decide) (no_quote_decide hpost) (removeSpaces pre)]
  simp only [Option.getD_some, List.take_left, List.drop_left]
  have h3 : removeSpaces ('"' :: post) = '"' :: removeSpaces post := by
    simp [removeSpaces, List.filter_cons]
  rw [h3]

theorem stripLine_two_quotes {pre mid post : List Char}
    (hpre : '"' ∉ pre) (hpost : '"' ∉ post) :
    stripLine (pre ++ '"' :: (mid ++ '"' :: post))
      = removeSpaces pre ++ '"' :: (mid ++ '"' :: removeSpaces post) := by
  unfold stripLine eraseSpacesBeforeQuote eraseSpacesAfterQuote
  rw [firstPos_append _ '"' (mid ++ '"' :: post) (by decide) pre (no_quote_decide hpre)]
  simp only [Option.getD_some, List.take_left, List.drop_left]
  rw [show removeSpaces pre ++ '"' :: (mid ++ '"' :: post)
      = (removeSpaces pre ++ '"' :: mid) ++ '"' :: post by simp]
  rw [lastPos_append _ '"' post (by decide) (no_quote_decide hpost)
    (removeSpaces pre ++ '"' :: mid)]
  simp only [Option.getD_some, List.take_left, List.drop_left]
  have h3 : removeSpaces ('"' :: post) = '"' :: removeSpaces post := by
    simp [removeSpaces, List.filter_cons]
  rw [h3]
  simp

/-- C9 — Text-stream loader space handling: spaces are removed exactly from
the segment before the first double quote (the whole line when no quote
exists) and from the segment after the last double quote (nothing further
when no quote exists, the whole line having already been stripped); and
parsing the line `opt = " test test "` on a string option stores the exact
value `" test test "` (12 characters, interior and quoted boundary spaces
preserved), the loader stripping only the spaces outside the quotes. -/
theorem c9_space_stripping :
    (∀ l : List Char, '"' ∉ l → stripLine l = removeSpaces l) ∧
    (∀ pre post : List Char, '"' ∉ pre → '"' ∉ post →
      stripLine (pre ++ '"' :: post) = removeSpaces pre ++ '"' :: removeSpaces post) ∧
    (∀ pre mid post : List Char, '"' ∉ pre → '"' ∉ post →
      stripLine (pre ++ '"' :: (mid ++ '"' :: post))
        = removeSpaces pre ++ '"' :: (mid ++ '"' :: removeSpaces post)) ∧
    loadConfig oneStrReg "opt = \" test test \"\n".data =
      .ok [("opt".data, some ⟨[], Value.vStr " test test ".data, false⟩)] :=
  ⟨fun _ h => stripLine_no_quote h,
   fun _ _ h1 h2 => stripLine_one_quote h1 h2,
   fun _ _ _ h1 h2 => stripLine_two_quotes h1 h2,
   by decide⟩

theorem digitChar_facts (d : Nat) (hd : d < 10) :
    isDigitChar (digitChar d) = true ∧ charToDigit (digitChar d) = d := by
  interval_cases d <;> exact ⟨by decide, by decide⟩

theorem digit_not_special {c : Char} (h : isDigitChar c = true) :
    isSpaceChar c = false ∧ c ≠ '-' ∧ c ≠ '+' ∧ c ≠ ' ' ∧ c ≠ '"' ∧ c ≠ '=' ∧
    c ≠ '\n' ∧ c ≠ '\r' ∧ c ≠ '#' ∧ c ≠ Char.ofNat 0 := by
  simp only [isDigitChar, Bool.or_eq_true, decide_eq_true_eq] at h
  rcases h with ((((((((h | h) | h) | h) | h) | h) | h) | h) | h) | h <;> subst h <;> decide

theorem digitsVal_append_singleton (xs : List Char) (c : Char) :
    digitsVal (xs ++ [c]) = digitsVal xs * 10 + charToDigit c := by
  simp [digitsVal, List.foldl_append]

theorem natToCharsFuel_spec :
    ∀ fuel n : Nat, n < fuel →
      natToCharsFuel fuel n ≠ [] ∧
      (∀ c ∈ natToCharsFuel fuel n, isDigitChar c = true) ∧
      digitsVal (natToCharsFuel fuel n) = n := by
  intro fuel
  induction fuel with
  | zero => intro n h; omega
  | succ fuel ih =>
    intro n h
    by_cases h10 : n < 10
    · simp only [natToCharsFuel, if_pos h10]
      refine ⟨by simp, ?_, ?_⟩
      · intro c hc
        simp only [List.mem_singleton] at hc
        subst hc
        exact (digitChar_facts n h10).1
      · simp only [digitsVal, List.foldl_cons, List.foldl_nil, Nat.zero_mul, Nat.zero_add]
        exact (digitChar_facts n h10).2
    · simp only [natToCharsFuel, if_neg h10]
      have hdiv : n / 10 < fuel := by
        have := Nat.div_lt_self (by omega : 0 < n) (by omega : 1 < 10)
        omega
      obtain ⟨hne, hdig, hval⟩ := ih (n / 10) hdiv
      have hmod : n % 10 < 10 := Nat.mod_lt n (by omega)
      refine ⟨by simp, ?_, ?_⟩
      · intro c hc
        rcases List.mem_append.mp hc with hc | hc
        · exact hdig c hc
        · simp only [List.mem_singleton] at hc
          subst hc
          exact (digitChar_facts (n % 10) hmod).1
      · rw [digitsVal_append_singleton, hval, (digitChar_facts (n % 10) hmod).2]
        omega

theorem natToChars_spec (n : Nat) :
    natToChars n ≠ [] ∧
    (∀ c ∈ natToChars n, isDigitChar c = true) ∧
    digitsVal (natToChars n) = n :=
  natToCharsFuel_spec (n + 1) n (by omega)

theorem takeWhile_all {p : Char → Bool} :
    ∀ l : List Char, (∀ c ∈ l, p c = true) → l.takeWhile p = l := by
  intro l
  induction l with
  | nil => intro _; rfl
  | cons c t ih =>
    intro h
    have hc := h c (by simp)
    have ih' := ih (fun d hd => h d (by simp [hd]))
    simp [List.takeWhile_cons, hc, ih']

theorem fromStringInt_digits (c : Char) (t : List Char)
    (hdig : ∀ d ∈ c :: t, isDigitChar d = true) :
    fromStringInt (c :: t) = .ok ((digitsVal (c :: t) : Int)) := by
  have hc := hdig c (by simp)
  obtain ⟨hsp, hmin, hplus, _⟩ := digit_not_special hc
  simp only [fromStringInt]
  rw [show List.dropWhile isSpaceChar (c :: t) = c :: t from by
    simp [List.dropWhile_cons, hsp]]
  simp only [List.headD_cons]
  rw [show (if c = '-' ∨ c = '+' then (c :: t).tail else c :: t) = c :: t from
    if_neg (not_or.mpr ⟨hmin, hplus⟩)]
  rw [takeWhile_all (c :: t) hdig]
  rw [if_neg (show ¬(c :: t = []) from by simp)]
  rw [if_neg hmin]

theorem fromStringInt_neg_digits (c : Char) (t : List Char)
    (hdig : ∀ d ∈ c :: t, isDigitChar d = true) :
    fromStringInt ('-' :: c :: t) = .ok (-(digitsVal (c :: t) : Int)) := by
  simp only [fromStringInt]
  rw [show List.dropWhile isSpaceChar ('-' :: c :: t) = '-' :: c :: t from by
    simp [List.dropWhile_cons, show isSpaceChar '-' = false from by decide]]
  simp only [List.headD_cons, List.tail_cons]
  simp only [true_or, if_true]
  rw [takeWhile_all (c :: t) hdig]
  rw [if_neg (show ¬(c :: t = []) from by simp)]

theorem fromStringInt_natToChars (m : Nat) :
    fromStringInt (natToChars m) = .ok ((m : Int)) := by
  obtain ⟨hne, hdig, hval⟩ := natToChars_spec m
  obtain ⟨c, t, hct⟩ : ∃ c t, natToChars m = c :: t := by
    cases hc : natToChars m with
    | nil => exact absurd hc hne
    | cons c t => exact ⟨c, t, rfl⟩
  rw [hct, fromStringInt_digits c t (by rw [← hct]; exact hdig)]
  rw [show c :: t = natToChars m from hct.symm, hval]

theorem fromStringInt_intToChars (n : Int) : fromStringInt (intToChars n) = .ok n := by
  by_cases hn : n < 0
  · obtain ⟨hne, hdig, hval⟩ := natToChars_spec (-n).toNat
    obtain ⟨c, t, hct⟩ : ∃ c t, natToChars (-n).toNat = c :: t := by
      cases hc : natToChars (-n).toNat with
      | nil => exact absurd hc hne
      | cons c t => exact ⟨c, t, rfl⟩
    unfold intToChars
    rw [if_pos hn, hct, fromStringInt_neg_digits c t (by rw [← hct]; exact hdig)]
    rw [show c :: t = natToChars (-n).toNat from hct.symm, hval]
    have h1 : (((-n).toNat : Int)) = -n := Int.toNat_of_nonneg (by omega)
    rw [h1]
    simp
  · unfold intToChars
    rw [if_neg hn, fromStringInt_natToChars n.toNat]
    have h1 : ((n.toNat : Int)) = n := Int.toNat_of_nonneg (by omega)
    rw [h1]

theorem set_self (r : OptionRecord) : r.set r.value = r := by
  obtain ⟨desc, v, d⟩ := r
  simp [OptionRecord.set]

theorem fromStringString_quoted (v : List Char) :
    fromStringString (('"' :: v) ++ ['"']) = v := by
  unfold fromStringString
  have hlen : (('"' :: v) ++ ['"']).length = v.length + 2 := by simp
  rw [hlen]
  rw [if_neg (by omega)]
  rw [if_pos ?side]
  case side =>
    refine ⟨by simp, ?_⟩
    rw [show v.length + 2 - 1 = ('"' :: v).length from by simp]
    rw [List.getD_append_right _ _ _ _ (le_refl _)]
    simp
  · rw [show v.length + 2 - 2 = v.length from by omega]
    rw [show (('"' :: v) ++ ['"']).drop 1 = v ++ ['"'] from by simp]
    rw [List.take_left]

theorem parseValueFromStr_encode (r : OptionRecord) :
    parseValueFromStr r (getValueAsStr r) = .ok r := by
  obtain ⟨desc, v, d⟩ := r
  cases v with
  | vInt n =>
    simp only [parseValueFromStr, getValueAsStr]
    rw [fromStringInt_intToChars n]
    simp only [Except.map]
    exact congrArg Except.ok (set_self ⟨desc, .vInt n, d⟩)
  | vBool b =>
    cases b with
    | true =>
      simp only [parseValueFromStr, getValueAsStr]
      rw [show toStringBool true = "true".data from by decide]
      rw [show fromStringBool "true".data = .ok true from by decide]
      simp only [Except.map]
      exact congrArg Except.ok (set_self ⟨desc, .vBool true, d⟩)
    | false =>
      simp only [parseValueFromStr, getValueAsStr]
      rw [show toStringBool false = "false".data from by decide]
      rw [show fromStringBool "false".data = .ok false from by decide]
      simp only [Except.map]
      exact congrArg Except.ok (set_self ⟨desc, .vBool false, d⟩)
  | vStr s =>
    simp only [parseValueFromStr, getValueAsStr]
    rw [show '"' :: (s ++ ['"']) = ('"' :: s) ++ ['"'] from by simp]
    rw [fromStringString_quoted s]
    exact congrArg Except.ok (set_self ⟨desc, .vStr s, d⟩)
theorem goodName_facts {n : List Char} (hn : goodName n = true) :
    n ≠ [] ∧ ∀ c ∈ n, c ≠ ' ' ∧ c ≠ '"' ∧ c ≠ '=' ∧ c ≠ '\n' ∧ c ≠ '\r' ∧ c ≠ '#' ∧
      c ≠ Char.ofNat 0 := by
  simp only [goodName, Bool.and_eq_true, List.all_eq_true, goodNameChar,
    bne_iff_ne, ne_eq] at hn
  obtain ⟨h1, h2⟩ := hn
  constructor
  · intro he
    subst he
    simp at h1
  · intro c hc
    have := h2 c hc
    tauto

theorem intToChars_chars (n : Int) :
    ∀ c ∈ intToChars n, isDigitChar c = true ∨ c = '-' := by
  unfold intToChars
  split
  · intro c hc
    rcases List.mem_cons.mp hc with h | h
    · exact Or.inr h
    · exact Or.inl ((natToChars_spec _).2.1 c h)
  · intro c hc
    exact Or.inl ((natToChars_spec _).2.1 c hc)

theorem take_append_cons (l₁ : List Char) (a : Char) (l₂ : List Char) :
    (l₁ ++ a :: l₂).take l₁.length = l₁ :=
  List.take_left l₁ (a :: l₂)

theorem drop_append_cons (l₁ : List Char) (a : Char) (l₂ : List Char) :
    (l₁ ++ a :: l₂).drop (l₁.length + 1) = l₂ := by
  rw [show l₁ ++ a :: l₂ = (l₁ ++ [a]) ++ l₂ from by simp]
  rw [show l₁.length + 1 = (l₁ ++ [a]).length from by simp]
  exact List.drop_left _ _

theorem skipLine_value_line {n : List Char} (hn : goodName n = true)
    (tail : List Char) : skipLine (n ++ '=' :: tail) = false := by
  obtain ⟨hne, hchars⟩ := goodName_facts hn
  obtain ⟨c₀, n', hcons⟩ : ∃ c₀ n', n = c₀ :: n' := by
    cases hc : n with
    | nil => exact absurd hc hne
    | cons c₀ n' => exact ⟨c₀, n', rfl⟩
  obtain ⟨_, _, _, hnl, hcr, hhash, hnul⟩ := hchars c₀ (by rw [hcons]; simp)
  subst hcons
  simp only [List.cons_append, skipLine]
  simp [hnl, hcr, hhash, hnul]

theorem no_space_no_quote_strip {l : List Char}
    (h : ∀ c ∈ l, c ≠ ' ' ∧ c ≠ '"') : stripLine l = l := by
  rw [stripLine_no_quote (fun hq => (h '"' hq).2 rfl)]
  exact removeSpaces_eq_self (fun hs => (h ' ' hs).1 rfl)

theorem stripLine_value_line {n : List Char} (hn : goodName n = true) (r : OptionRecord) :
    stripLine (n ++ '=' :: getValueAsStr r) = n ++ '=' :: getValueAsStr r := by
  obtain ⟨hne, hchars⟩ := goodName_facts hn
  have hnq : ∀ c ∈ n ++ ['='], c ≠ ' ' ∧ c ≠ '"' := by
    intro c hc
    rcases List.mem_append.mp hc with hc | hc
    · exact ⟨(hchars c hc).1, (hchars c hc).2.1⟩
    · simp only [List.mem_singleton] at hc
      subst hc
      exact ⟨by decide, by decide⟩
  obtain ⟨desc, v, d⟩ := r
  cases v with
  | vInt m =>
    apply no_space_no_quote_strip
    intro c hc
    rcases List.mem_append.mp hc with hc | hc
    · exact ⟨(hchars c hc).1, (hchars c hc).2.1⟩
    · rcases List.mem_cons.mp hc with hc | hc
      · subst hc
        exact ⟨by decide, by decide⟩
      · rcases intToChars_chars m c hc with hd | hd
        · obtain ⟨_, _, _, hsp', hq', _⟩ := digit_not_special hd
          exact ⟨hsp', hq'⟩
        · subst hd
          exact ⟨by decide, by decide⟩
  | vBool b =>
    apply no_space_no_quote_strip
    intro c hc
    rcases List.mem_append.mp hc with hc | hc
    · exact ⟨(hchars c hc).1, (hchars c hc).2.1⟩
    · rcases List.mem_cons.mp hc with hc | hc
      · subst hc
        exact ⟨by decide, by decide⟩
      · cases b with
        | true =>
          simp only [getValueAsStr] at hc
          have : ∀ c ∈ toStringBool true, c ≠ ' ' ∧ c ≠ '"' := by decide
          exact this c hc
        | false =>
          simp only [getValueAsStr] at hc
          have : ∀ c ∈ toStringBool false, c ≠ ' ' ∧ c ≠ '"' := by decide
          exact this c hc
  | vStr s =>
    have hshape : n ++ '=' :: getValueAsStr ⟨desc, .vStr s, d⟩
        = (n ++ ['=']) ++ '"' :: (s ++ '"' :: []) := by
      simp [getValueAsStr]
    rw [hshape]
    rw [stripLine_two_quotes (fun hq => (hnq '"' hq).2 rfl) (by simp)]
    rw [removeSpaces_eq_self (fun hs => (hnq ' ' hs).1 rfl)]
    rw [show removeSpaces [] = [] from rfl]

theorem processLine_value_line {reg : Registry} {n : List Char} {r : OptionRecord} {k : Nat}
    (hn : goodName n = true) (hfind : findPtr reg n = some (some r)) :
    processLine reg k (n ++ '=' :: getValueAsStr r) = .ok (updateReg reg n r) := by
  obtain ⟨hne, hchars⟩ := goodName_facts hn
  obtain ⟨c₀, n', hcons⟩ : ∃ c₀ n', n = c₀ :: n' := by
    cases hc : n with
    | nil => exact absurd hc hne
    | cons c₀ n' => exact ⟨c₀, n', rfl⟩
  have hfp : firstPos (· = '=') (n ++ '=' :: getValueAsStr r) = some n.length := by
    apply firstPos_append _ '=' _ (by decide) n
    intro c hc
    simp only [decide_eq_false_iff_not]
    exact (hchars c hc).2.2.1
  unfold processLine
  rw [skipLine_value_line hn, if_neg (by simp)]
  rw [stripLine_value_line hn r]
  dsimp only
  rw [hfp]
  rw [show n.length = n'.length + 1 from by rw [hcons]; simp]
  simp only []
  rw [show n'.length + 1 = n.length from by rw [hcons]; simp]
  rw [take_append_cons n '=' (getValueAsStr r)]
  rw [show n'.length + 2 = n.length + 1 from by
    rw [hcons]; simp only [List.length_cons]]
  rw [drop_append_cons n '=' (getValueAsStr r)]
  rw [hfind]
  dsimp only
  rw [parseValueFromStr_encode r]

theorem processLine_skip {reg : Registry} {k : Nat} {l : List Char}
    (h : skipLine l = true) : processLine reg k l = .ok reg := by
  unfold processLine
  rw [if_pos h]

theorem processLine_hash (reg : Registry) (k : Nat) (t : List Char) :
    processLine reg k ('#' :: t) = .ok reg :=
  processLine_skip (by simp [skipLine])

theorem processLine_blank (reg : Registry) (k : Nat) :
    processLine reg k [] = .ok reg :=
  processLine_skip rfl

theorem loadLines_cons_ok {reg reg' : Registry} {k : Nat} {l : List Char}
    {rest : List (List Char)} (h : processLine reg k l = .ok reg') :
    loadLines reg k (l :: rest) = loadLines reg' (k + 1) rest := by
  simp only [loadLines]
  rw [h]

theorem loadLines_append_ok {xs : List (List Char)} :
    ∀ {reg reg' : Registry} {k : Nat}, loadLines reg k xs = .ok reg' →
    ∀ ys : List (List Char),
      loadLines reg k (xs ++ ys) = loadLines reg' (k + xs.length) ys := by
  induction xs with
  | nil =>
    intro reg reg' k h ys
    simp only [loadLines] at h
    injection h with h
    subst h
    simp [List.nil_append]
  | cons x xs ih =>
    intro reg reg' k h ys
    simp only [loadLines, List.cons_append] at h ⊢
    split at h
    · rename_i reg'' hp
      rw [show xs.append ys = xs ++ ys from rfl]
      rw [ih h ys]
      rw [show k + 1 + xs.length = k + (x :: xs).length from by
        simp only [List.length_cons]; omega]
    · rename_i e hp
      exact absurd h (by simp)

theorem updateReg_not_mem {reg : Registry} {n : List Char} {r : OptionRecord}
    (h : ∀ e ∈ reg, e.1 ≠ n) : updateReg reg n r = reg := by
  induction reg with
  | nil => rfl
  | cons e rest ih =>
    simp only [updateReg, List.map_cons]
    rw [if_neg (h e (by simp))]
    rw [show List.map (fun p => if p.1 = n then (p.1, some r) else p) rest
        = updateReg rest n r from rfl]
    rw [ih (fun e' he' => h e' (by simp [he']))]

theorem findPtr_of_mem {reg : Registry} {n : List Char} {r : OptionRecord}
    (hdk : distinctKeys reg = true) (hmem : (n, some r) ∈ reg) :
    findPtr reg n = some (some r) := by
  induction reg with
  | nil => simp at hmem
  | cons e rest ih =>
    obtain ⟨m, q⟩ := e
    simp only [distinctKeys, Bool.and_eq_true, List.all_eq_true, bne_iff_ne, ne_eq] at hdk
    obtain ⟨hall, hdk'⟩ := hdk
    rcases List.mem_cons.mp hmem with he | hmem'
    · obtain ⟨hnm, hq⟩ := Prod.mk.injEq n (some r) m q ▸ he
      unfold findPtr
      rw [if_pos hnm.symm, hq]
    · have hm : m ≠ n := by
        intro hmn
        subst hmn
        exact (hall _ hmem') rfl
      unfold findPtr
      rw [if_neg hm]
      exact ih hdk' hmem'

theorem updateReg_self {reg : Registry} {n : List Char} {r : OptionRecord}
    (hdk : distinctKeys reg = true) (hmem : (n, some r) ∈ reg) :
    updateReg reg n r = reg := by
  induction reg with
  | nil => rfl
  | cons e rest ih =>
    obtain ⟨m, q⟩ := e
    simp only [distinctKeys, Bool.and_eq_true, List.all_eq_true, bne_iff_ne, ne_eq] at hdk
    obtain ⟨hall, hdk'⟩ := hdk
    simp only [updateReg, List.map_cons]
    rcases List.mem_cons.mp hmem with he | hmem'
    · obtain ⟨hnm, hq⟩ := Prod.mk.injEq n (some r) m q ▸ he
      rw [if_pos hnm.symm]
      rw [show List.map (fun p => if p.1 = n then (p.1, some r) else p) rest
          = updateReg rest n r from rfl]
      rw [updateReg_not_mem (fun e' he' => by
        intro h1
        subst hnm
        exact (hall e' he') h1)]
      rw [hq]
    · have hm : m ≠ n := by
        intro hmn
        subst hmn
        exact (hall _ hmem') rfl
      rw [if_neg hm]
      rw [show List.map (fun p => if p.1 = n then (p.1, some r) else p) rest
          = updateReg rest n r from rfl]
      rw [ih hdk' hmem']

theorem loadLines_entry {reg : Registry} {n : List Char} {r : OptionRecord} {k : Nat}
    (hn : goodName n = true) (hfind : findPtr reg n = some (some r))
    (hupd : updateReg reg n r = reg) :
    loadLines reg k (entryLinesSpec n r) = .ok reg := by
  unfold entryLinesSpec
  by_cases hdef : r.is_def
  all_goals by_cases hd : r.description.length > 0
  all_goals simp only [if_pos, if_neg, hdef, hd, if_true, if_false, Bool.false_eq_true,
    List.cons_append, List.nil_append, List.singleton_append]
  · rw [loadLines_cons_ok (processLine_hash reg k _)]
    rw [loadLines_cons_ok (processLine_hash _ _ _)]
    rw [loadLines_cons_ok (processLine_hash _ _ _)]
    rw [loadLines_cons_ok (processLine_blank _ _)]
    rfl
  · rw [loadLines_cons_ok (processLine_hash _ _ _)]
    rw [loadLines_cons_ok (processLine_blank _ _)]
    rfl
  · rw [loadLines_cons_ok (processLine_hash reg k _)]
    rw [loadLines_cons_ok (processLine_hash _ _ _)]
    rw [loadLines_cons_ok (processLine_value_line hn hfind)]
    rw [hupd]
    rw [loadLines_cons_ok (processLine_blank _ _)]
    rfl
  · rw [loadLines_cons_ok (processLine_value_line hn hfind)]
    rw [hupd]
    rw [loadLines_cons_ok (processLine_blank _ _)]
    rfl

theorem goodRegistry_parts {reg : Registry} (h : goodRegistry reg = true) :
    distinctKeys reg = true ∧ (∀ e ∈ reg, goodName e.1 = true) ∧
    (∀ e ∈ reg, goodPtr e.2 = true) := by
  simp only [goodRegistry, Bool.and_eq_true, List.all_eq_true] at h
  exact ⟨h.1, fun e he => ((h.2 e he).1 : _), fun e he => (h.2 e he).2⟩

theorem loadLines_registry {regAll : Registry} (hdk : distinctKeys regAll = true)
    (hgood : ∀ e ∈ regAll, goodName e.1 = true) :
    ∀ (ents : Registry) (k : Nat), (∀ e ∈ ents, e ∈ regAll) →
      loadLines regAll k (registryLines ents) = .ok regAll := by
  intro ents
  induction ents with
  | nil => intro k _; rfl
  | cons e rest ih =>
    obtain ⟨n, p⟩ := e
    intro k hsub
    simp only [registryLines]
    cases p with
    | none =>
      simp only [List.nil_append]
      exact ih k (fun e' he' => hsub e' (by simp [he']))
    | some r =>
      have hmem : (n, some r) ∈ regAll := hsub (n, some r) (by simp)
      have hentry : loadLines regAll k (entryLinesSpec n r) = .ok regAll :=
        loadLines_entry (hgood _ hmem) (findPtr_of_mem hdk hmem) (updateReg_self hdk hmem)
      rw [loadLines_append_ok hentry]
      exact ih _ (fun e' he' => hsub e' (by simp [he']))
theorem joinNl_append (a b : List (List Char)) :
    joinNl (a ++ b) = joinNl a ++ joinNl b := by
  induction a with
  | nil => rfl
  | cons l rest ih => simp [joinNl, ih]

theorem entryText_joinNl (n : List Char) (r : OptionRecord) :
    entryText n (some r) = joinNl (entryLinesSpec n r) := by
  by_cases hd : r.description.length > 0 <;> by_cases hdef : r.is_def <;>
    simp [entryText, entryLinesSpec, joinNl, hd, hdef]

theorem toConfigString_joinNl :
    ∀ reg : Registry, toConfigString reg = joinNl (registryLines reg) := by
  intro reg
  induction reg with
  | nil => rfl
  | cons e rest ih =>
    obtain ⟨n, p⟩ := e
    simp only [toConfigString, registryLines, joinNl_append, ih]
    cases p with
    | none => rfl
    | some r => rw [entryText_joinNl]

theorem splitNl_append_cons {x : List Char} (hx : '\n' ∉ x) (y : List Char) :
    splitNl (x ++ '\n' :: y) = x :: splitNl y := by
  induction x with
  | nil => simp [splitNl]
  | cons c t ih =>
    have hc : ¬ c = '\n' := by
      intro he
      exact hx (by simp [he])
    have ih' := ih (fun hm => hx (by simp [hm]))
    simp only [List.cons_append, splitNl, if_neg hc]
    rw [show t.append ('\n' :: y) = t ++ '\n' :: y from rfl, ih']

theorem splitNl_joinNl :
    ∀ ls : List (List Char), (∀ l ∈ ls, '\n' ∉ l) →
      splitNl (joinNl ls) = ls ++ [[]] := by
  intro ls
  induction ls with
  | nil => intro _; rfl
  | cons l rest ih =>
    intro h
    simp only [joinNl]
    rw [splitNl_append_cons (h l (by simp)), ih (fun l' hl' => h l' (by simp [hl']))]
    rfl

theorem getLines_joinNl (ls : List (List Char)) (h : ∀ l ∈ ls, '\n' ∉ l) :
    getLines (joinNl ls) = ls := by
  unfold getLines
  rw [splitNl_joinNl ls h]
  rw [if_pos (by simp)]
  simp

theorem getValueAsStr_no_newline {r : OptionRecord} (hlf : lfFreeValue r.value = true) :
    '\n' ∉ getValueAsStr r := by
  obtain ⟨desc, v, d⟩ := r
  cases v with
  | vInt m =>
    intro hm
    rcases intToChars_chars m '\n' hm with hd | hd
    · exact (digit_not_special hd).2.2.2.2.2.2.1 rfl
    · exact absurd hd (by decide)
  | vBool b =>
    intro hm
    simp only [getValueAsStr, toStringBool] at hm
    cases b with
    | true =>
      rw [if_pos rfl] at hm
      exact absurd hm (by decide)
    | false =>
      rw [if_neg (by simp)] at hm
      exact absurd hm (by decide)
  | vStr s =>
    simp only [lfFreeValue, List.all_eq_true, bne_iff_ne, ne_eq] at hlf
    intro hm
    simp only [getValueAsStr, List.mem_cons, List.mem_append, List.mem_singleton] at hm
    rcases hm with hm | hm | hm
    · exact absurd hm (by decide)
    · exact hlf '\n' hm rfl
    · exact absurd hm (by decide)

theorem registryLines_no_newline {reg : Registry} (hgood : goodRegistry reg = true) :
    ∀ l ∈ registryLines reg, '\n' ∉ l := by
  obtain ⟨hdk, hnames, hptrs⟩ := goodRegistry_parts hgood
  clear hgood hdk
  induction reg with
  | nil => simp [registryLines]
  | cons e rest ih =>
    obtain ⟨n, p⟩ := e
    intro l hl
    simp only [registryLines, List.mem_append] at hl
    rcases hl with hl | hl
    · cases p with
      | none => simp at hl
      | some r =>
        have hptr : goodPtr (some r) = true := hptrs (n, some r) (by simp)
        simp only [goodPtr, Bool.and_eq_true, List.all_eq_true, bne_iff_ne, ne_eq] at hptr
        obtain ⟨hdescr, hlf⟩ := hptr
        have hname : goodName n = true := hnames (n, some r) (by simp)
        obtain ⟨_, hchars⟩ := goodName_facts hname
        simp only [entryLinesSpec, List.mem_append] at hl
        rcases hl with hl | hl
        · by_cases hd : r.description.length > 0
          · rw [if_pos hd] at hl
            simp only [List.mem_cons, List.mem_singleton] at hl
            rcases hl with hl | hl
            · subst hl
              intro hm
              simp only [List.mem_cons, List.mem_append] at hm
              rcases hm with hm | hm | hm
              · exact absurd hm (by decide)
              · exact absurd hm (by decide)
              · exact hdescr '\n' hm rfl
            · rcases hl with hl | hl
              · subst hl
                decide
              · simp at hl
          · rw [if_neg hd] at hl
            simp at hl
        · simp only [List.mem_cons, List.mem_singleton] at hl
          rcases hl with hl | hl
          · subst hl
            intro hm
            simp only [List.mem_append, List.mem_cons] at hm
            rcases hm with hm | hm
            · rcases hm with hm | hm
              · by_cases hdef : r.is_def
                · rw [if_pos hdef] at hm
                  simp only [List.mem_singleton] at hm
                  exact absurd hm (by decide)
                · rw [if_neg hdef] at hm
                  simp at hm
              · exact (hchars '\n' hm).2.2.2.1 rfl
            · rcases hm with hm | hm
              · exact absurd hm (by decide)
              · exact getValueAsStr_no_newline hlf hm
          · rcases hl with hl | hl
            · subst hl
              simp
            · simp at hl
    · exact ih (fun e' he' => hnames e' (by simp [he'])) (fun e' he' => hptrs e' (by simp [he'])) l hl

/-- C5 (amended) — the configuration string laid out line by line: for each
entry in enumeration order, when the description is non-empty a line
`# <description>` followed by a line holding `#` and a trailing space
(the code emits `"# " << std::endl`, not a bare `#`); then one line
`<prefix><name>=<encoded value>` where `<prefix>` is `#` exactly when
`is_default()` is true at call time and empty otherwise; then a blank
line. -/
theorem c5_config_string_lines (reg : Registry) (hgood : goodRegistry reg = true) :
    getLines (toConfigString reg) = registryLines reg := by
  rw [toConfigString_joinNl]
  exact getLines_joinNl _ (registryLines_no_newline hgood)

theorem c5_config_string_lines_witness :
    getLines (toConfigString sampleReg) = registryLines sampleReg :=
  c5_config_string_lines sampleReg (by decide)

/-- C5 (counterexample) — for a registry with one defaulted, described
`int` option the generated lines are `# option 1`, then `# ` (hash AND a
trailing space — not the bare `#` line the claim states), then
`#opt1=10`, then a blank line. -/
theorem c5_counterexample :
    getLines (toConfigString oneIntReg) =
      ["# option 1".data, "# ".data, "#opt1=10".data, []] ∧
    "# ".data ≠ "#".data := by
  exact ⟨by decide, by decide⟩

/-- C1 (amended) — round-trip: for every well-formed registry state whose
string-option values contain no newline character, `to_config_string()`
followed by loading the resulting string through the string loader
succeeds, and every option's record (in particular its value) is exactly
what it was at serialization time: the loader returns the registry
unchanged. -/
theorem c1_round_trip (reg : Registry) (hgood : goodRegistry reg = true) :
    loadConfig reg (toConfigString reg) = .ok reg := by
  unfold loadConfig
  rw [toConfigString_joinNl, getLines_joinNl _ (registryLines_no_newline hgood)]
  obtain ⟨hdk, hnames, _⟩ := goodRegistry_parts hgood
  exact loadLines_registry hdk hnames reg 0 (fun e he => he)

theorem c1_round_trip_witness :
    loadConfig sampleReg (toConfigString sampleReg) = .ok sampleReg :=
  c1_round_trip sampleReg (by decide)

/-- C1 (counterexample) — a registry whose single string option has been
set to the non-default value `"a\nb"` (an embedded newline): the encoded
value spans two physical lines, and re-loading the generated configuration
string fails with a structural parse error instead of succeeding. -/
theorem c1_counterexample :
    loadConfig newlineReg (toConfigString newlineReg) =
      .error (.structuralError 1) := by decide

/-- C6 (amended) — error annotation of the text-stream loader: a
structural error on the line processed with counter value `k` (the
`k+1`-st line, 1-based) is annotated with `k` — the 1-based number minus
one; a codec error on that line is annotated with the offending key name
and `k - 1` computed in unsigned 32-bit arithmetic — the 1-based number
minus two, wrapping to 4294967295 on the first line. -/
theorem c6_error_linenum :
    (∀ (reg : Registry) (k : Nat) (line : List Char),
      skipLine line = false →
      (firstPos (· = '=') (stripLine line) = none ∨
        firstPos (· = '=') (stripLine line) = some 0) →
      processLine reg k line = .error (.structuralError (k % 4294967296))) ∧
    (∀ (reg : Registry) (k : Nat) (line : List Char) (e : Nat) (r : OptionRecord)
        (msg : List Char),
      skipLine line = false →
      firstPos (· = '=') (stripLine line) = some (e + 1) →
      findPtr reg ((stripLine line).take (e + 1)) = some (some r) →
      parseValueFromStr r ((stripLine line).drop (e + 2)) = .error msg →
      processLine reg k line =
        .error (.codecError ((stripLine line).take (e + 1))
          ((k + 4294967295) % 4294967296))) := by
  constructor
  · intro reg k line hskip hfp
    unfold processLine
    rw [if_neg (by simp [hskip])]
    dsimp only
    rcases hfp with hfp | hfp
    · rw [hfp]
    · rw [hfp]
  · intro reg k line e r msg hskip hfp hfind hparse
    unfold processLine
    rw [if_neg (by simp [hskip])]
    dsimp only
    rw [hfp]
    dsimp only
    rw [hfind]
    dsimp only
    rw [hparse]

theorem c6_error_linenum_witness :
    processLine oneIntReg 0 "x".data = .error (.structuralError (0 % 4294967296)) ∧
    processLine oneIntReg 0 "opt1=zz".data =
      .error (.codecError ((stripLine "opt1=zz".data).take 4) ((0 + 4294967295) % 4294967296)) :=
  ⟨c6_error_linenum.1 oneIntReg 0 "x".data (by decide) (Or.inl (by decide)),
   c6_error_linenum.2 oneIntReg 0 "opt1=zz".data 3
     ⟨"option 1".data, Value.vInt 10, true⟩
     ("Unable to parse ".data ++ "zz".data ++ " to its defined type".data)
     (by decide) (by decide) (by decide) (by decide)⟩

/-- C6 (counterexample) — the first line of a stream is the 1-based line 1,
but a structural error there is annotated with 0, and a codec error there
is annotated with 4294967295 (`linenum - 1` on `unsigned int`), not with
the 1-based line number. -/
theorem c6_counterexample :
    loadConfig oneIntReg "x\n".data = .error (.structuralError 0) ∧
    loadConfig oneIntReg "x\n".data ≠ .error (.structuralError 1) ∧
    loadConfig oneIntReg "opt1=zz\n".data =
      .error (.codecError "opt1".data 4294967295) := by
  exact ⟨by decide, by decide, by decide⟩
